import Mathlib

/-!
Verification of the YiTranslate document-translation pipeline
(`src/DocxService.py` and `src/server/DocxService.py`).

Texts are modelled as lists of characters (`Text`); the regular
expressions of the source are embedded as deterministic character-level
matchers (the two patterns involved, `^(\d+(?:\.\d+)*\s+)(.*)$` and
`\{\{\s*(\d+)\s*\}\}`, are backtracking-free on the inputs the code
feeds them, as argued in the comments of each matcher).  Python `\d`
and `\s` are modelled by `Char.isDigit` and `Char.isWhitespace`
(the ASCII core that all placeholder and numbering text uses).
-/

/-- Document text is a sequence of characters. -/
abbrev Text := List Char

/-- Characters of a Lean string literal, used for concrete inputs. -/
def strL (s : String) : Text := s.data

deriving instance DecidableEq for Except

/-- Python `int(...)` on a digit string: decimal value, leading zeros allowed. -/
def digitsToNat (ds : Text) : Nat :=
  ds.foldl (fun a c => 10 * a + (c.toNat - 48)) 0

/-- Recursion core for decimal printing: most significant digits first;
the fuel only bounds the recursion depth, any `fuel ≥ n` gives the digits
of `n` (`natToCharsF_eq`). -/
def natToCharsF : Nat → Nat → Text
  | _, 0 => []
  | 0, _ + 1 => []
  | fuel + 1, n + 1 =>
    natToCharsF fuel ((n + 1) / 10) ++ [Char.ofNat (48 + (n + 1) % 10)]

/-- Python `str(n)` on a non-negative integer: standard decimal digits. -/
def natToChars (n : Nat) : Text :=
  if n = 0 then ['0'] else natToCharsF n n

theorem natToCharsF_eq : ∀ (fuel n : Nat), n ≤ fuel →
    natToCharsF fuel n = ((Nat.digits 10 n).map (fun d => Char.ofNat (48 + d))).reverse := by
  intro fuel
  induction fuel with
  | zero =>
    intro n hn
    rw [Nat.le_zero.mp hn]
    simp [natToCharsF]
  | succ fuel ih =>
    intro n hn
    match n with
    | 0 => simp [natToCharsF]
    | k + 1 =>
      have hpos : 0 < k + 1 := Nat.succ_pos k
      rw [Nat.digits_def' (by norm_num : 1 < 10) hpos]
      have hdiv : (k + 1) / 10 ≤ fuel := by
        have := Nat.div_lt_self hpos (by norm_num : 1 < 10)
        omega
      simp only [natToCharsF, ih _ hdiv, List.map_cons, List.reverse_cons]

theorem natToChars_eq_digits {n : Nat} (h0 : n ≠ 0) :
    natToChars n = ((Nat.digits 10 n).map (fun d => Char.ofNat (48 + d))).reverse := by
  unfold natToChars
  rw [if_neg h0, natToCharsF_eq n n le_rfl]

/-- The placeholder written by extraction: the f-string
`f"\x7b\x7b {current_num} \x7d\x7d"`, i.e. double braces around a
single-space-padded decimal number. -/
def encodeTok (n : Nat) : Text :=
  ['{', '{', ' '] ++ natToChars n ++ [' ', '}', '}']

section TextLemmas

variable {p : Char → Bool}

theorem length_dropWhile_le (p : Char → Bool) (l : Text) :
    (l.dropWhile p).length ≤ l.length :=
  (List.dropWhile_sublist p).length_le

theorem takeWhile_all_append {xs ys : Text}
    (hxs : ∀ a ∈ xs, p a = true)
    (hys : ∀ z zs, ys = z :: zs → p z = false) :
    (xs ++ ys).takeWhile p = xs ∧ (xs ++ ys).dropWhile p = ys := by
  induction xs with
  | nil =>
    cases ys with
    | nil => simp
    | cons z zs => simp [List.takeWhile_cons, List.dropWhile_cons, hys z zs rfl]
  | cons a xs ih =>
    have ha : p a = true := hxs a (by simp)
    have := ih (fun b hb => hxs b (by simp [hb]))
    simp [List.takeWhile_cons, List.dropWhile_cons, ha, this.1, this.2]

theorem mem_takeWhile_pred {l : Text} {a : Char} (h : a ∈ l.takeWhile p) :
    p a = true := by
  induction l with
  | nil => simp at h
  | cons c cs ih =>
    rw [List.takeWhile_cons] at h
    by_cases hc : p c = true
    · simp [hc] at h
      rcases h with rfl | h
      · exact hc
      · exact ih h
    · simp [Bool.eq_false_iff.mpr hc] at h

theorem dropWhile_id {l : Text}
    (h : ∀ c cs, l = c :: cs → p c = false) :
    l.dropWhile p = l := by
  cases l with
  | nil => rfl
  | cons c cs => simp [List.dropWhile_cons, h c cs rfl]

end TextLemmas

theorem ws_not_digit {c : Char} (h : c.isWhitespace = true) : c.isDigit = false := by
  simp [Char.isWhitespace] at h
  rcases h with ((rfl | rfl) | rfl) | rfl <;> decide

theorem digit_not_ws {c : Char} (h : c.isDigit = true) : c.isWhitespace = false := by
  by_contra hws
  have := ws_not_digit (c := c) (by revert hws; cases c.isWhitespace <;> simp)
  rw [h] at this
  cases this

theorem digit_ne_brace {c : Char} (h : c.isDigit = true) : ¬ c = '{' := by
  rintro rfl
  cases h

theorem ws_ne_brace {c : Char} (h : c.isWhitespace = true) : ¬ c = '{' := by
  simp [Char.isWhitespace] at h
  rcases h with ((rfl | rfl) | rfl) | rfl <;> decide

theorem digitsToNat_natToChars (n : Nat) : digitsToNat (natToChars n) = n := by
  by_cases h0 : n = 0
  · subst h0; decide
  · have hlt : ∀ d ∈ Nat.digits 10 n, d < 10 :=
      fun d hd => Nat.digits_lt_base (by norm_num) hd
    have key : ∀ L : List Nat, (∀ d ∈ L, d < 10) →
        (L.map (fun d => Char.ofNat (48 + d))).foldr
          (fun c a => 10 * a + (c.toNat - 48)) 0 = Nat.ofDigits 10 L := by
      intro L hL
      induction L with
      | nil => simp [Nat.ofDigits]
      | cons d L ih =>
        have hd : d < 10 := hL d (by simp)
        have hch : (Char.ofNat (48 + d)).toNat - 48 = d := by
          interval_cases d <;> decide
        simp only [List.map_cons, List.foldr_cons, ih (fun x hx => hL x (by simp [hx])),
          Nat.ofDigits_cons, hch]
        ring
    have := key (Nat.digits 10 n) hlt
    simp only [digitsToNat, natToChars_eq_digits h0, List.foldl_reverse]
    rw [this, Nat.ofDigits_digits]

theorem natToChars_digits (n : Nat) : ∀ c ∈ natToChars n, c.isDigit = true := by
  by_cases h0 : n = 0
  · subst h0; decide
  · intro c hc
    simp only [natToChars_eq_digits h0, List.mem_reverse, List.mem_map] at hc
    obtain ⟨d, hd, rfl⟩ := hc
    have : d < 10 := Nat.digits_lt_base (by norm_num) hd
    interval_cases d <;> decide

theorem natToChars_ne_nil (n : Nat) : natToChars n ≠ [] := by
  by_cases h0 : n = 0
  · subst h0; decide
  · simp only [natToChars_eq_digits h0]
    simp [Nat.digits_ne_nil_iff_ne_zero.mpr h0]

/-- One attempt of the reassembly pattern `\{\{\s*(\d+)\s*\}\}` at the head
of the text (`re.sub` tries the pattern at every position).  For this
pattern greedy matching is deterministic: after the maximal whitespace run
a digit must follow, after the maximal digit run only whitespace or the
closing braces can follow, so no backtracking can turn a failure into a
success.  Returns `(decoded number, matched span, remaining text)`;
`int(...)` on the digit group is `digitsToNat`. -/
def matchToken : Text → Option (Nat × Text × Text)
  | '{' :: '{' :: r1 =>
    let ws1 := r1.takeWhile (·.isWhitespace)
    let r2 := r1.dropWhile (·.isWhitespace)
    let ds := r2.takeWhile (·.isDigit)
    if ds = [] then none
    else
      let r3 := r2.dropWhile (·.isDigit)
      let ws2 := r3.takeWhile (·.isWhitespace)
      match r3.dropWhile (·.isWhitespace) with
      | '}' :: '}' :: rest =>
        some (digitsToNat ds, '{' :: '{' :: (ws1 ++ ds ++ ws2 ++ ['}', '}']), rest)
      | _ => none
  | _ => none

theorem matchToken_shape {ws1 ds ws2 : Text} (rest : Text)
    (h1 : ∀ c ∈ ws1, c.isWhitespace = true)
    (h2 : ds ≠ [])
    (h3 : ∀ c ∈ ds, c.isDigit = true)
    (h4 : ∀ c ∈ ws2, c.isWhitespace = true) :
    matchToken ('{' :: '{' :: (ws1 ++ (ds ++ (ws2 ++ '}' :: '}' :: rest)))) =
      some (digitsToNat ds, '{' :: '{' :: (ws1 ++ ds ++ ws2 ++ ['}', '}']), rest) := by
  obtain ⟨d, ds', rfl⟩ := List.exists_cons_of_ne_nil h2
  have hys1 : ∀ z zs, d :: (ds' ++ (ws2 ++ '}' :: '}' :: rest)) = z :: zs →
      z.isWhitespace = false := by
    intro z zs hz
    injection hz with h5 h6
    rw [← h5]
    exact digit_not_ws (h3 d (by simp))
  have hsp1 := takeWhile_all_append h1 hys1
  have hys2 : ∀ z zs, ws2 ++ '}' :: '}' :: rest = z :: zs →
      z.isDigit = false := by
    intro z zs hz
    cases ws2 with
    | nil =>
      rw [List.nil_append] at hz
      injection hz with h5 h6
      rw [← h5]
      decide
    | cons a as =>
      rw [List.cons_append] at hz
      injection hz with h5 h6
      rw [← h5]
      exact ws_not_digit (h4 a (by simp))
  have hsp2 := takeWhile_all_append h3 hys2
  have hys3 : ∀ z zs, ('}' :: '}' :: rest : Text) = z :: zs →
      z.isWhitespace = false := by
    intro z zs hz
    injection hz with h5 h6
    rw [← h5]
    decide
  have hsp3 := takeWhile_all_append h4 hys3
  simp only [List.cons_append] at hsp2
  have e1 : ws1 ++ (d :: ds' ++ (ws2 ++ '}' :: '}' :: rest)) =
      ws1 ++ (d :: (ds' ++ (ws2 ++ '}' :: '}' :: rest))) := by simp
  simp only [matchToken, e1, hsp1.1, hsp1.2, hsp2.1, hsp2.2, hsp3.1, hsp3.2]
  simp

theorem matchToken_some {l m rest : Text} {n : Nat}
    (h : matchToken l = some (n, m, rest)) :
    ∃ ws1 ds ws2,
      (∀ c ∈ ws1, c.isWhitespace = true) ∧ ds ≠ [] ∧
      (∀ c ∈ ds, c.isDigit = true) ∧ (∀ c ∈ ws2, c.isWhitespace = true) ∧
      n = digitsToNat ds ∧
      m = '{' :: '{' :: (ws1 ++ ds ++ ws2 ++ ['}', '}']) ∧
      l = m ++ rest := by
  rw [matchToken.eq_def] at h
  split at h
  case h_2 => exact absurd h (by simp)
  case h_1 r1 =>
    simp only at h
    split at h
    case isTrue => exact absurd h (by simp)
    case isFalse hds =>
      split at h
      case h_2 => exact absurd h (by simp)
      case h_1 rest' heq =>
        simp only [Option.some.injEq, Prod.mk.injEq] at h
        obtain ⟨hn, hm, hrest⟩ := h
        refine ⟨r1.takeWhile (·.isWhitespace),
          (r1.dropWhile (·.isWhitespace)).takeWhile (·.isDigit),
          ((r1.dropWhile (·.isWhitespace)).dropWhile (·.isDigit)).takeWhile (·.isWhitespace),
          fun c hc => mem_takeWhile_pred hc, hds,
          fun c hc => mem_takeWhile_pred hc,
          fun c hc => mem_takeWhile_pred hc,
          hn.symm, hm.symm, ?_⟩
        subst hrest
        rw [← hm]
        have e3 := List.takeWhile_append_dropWhile (·.isWhitespace)
          ((r1.dropWhile (·.isWhitespace)).dropWhile (·.isDigit))
        rw [heq] at e3
        have e2 := List.takeWhile_append_dropWhile (·.isDigit)
          (r1.dropWhile (·.isWhitespace))
        have e1 := List.takeWhile_append_dropWhile (·.isWhitespace) r1
        simp only [List.cons_append, List.append_assoc, List.nil_append]
        rw [e3, e2, e1]

theorem matchToken_rest_lt {l m rest : Text} {n : Nat}
    (h : matchToken l = some (n, m, rest)) : rest.length < l.length := by
  obtain ⟨ws1, ds, ws2, -, -, -, -, -, hm, hl⟩ := matchToken_some h
  subst hm hl
  simp [List.length_append]
  omega

/-- `pattern.sub(lambda m: content_map.get(int(m.group(1)), m.group(0)), text)`
from `process_fill_paragraph` in `src/DocxService.py`.  `re.sub` scans left to
right; at each position it tries the pattern, on a match it emits the
replacement and resumes after the match (the replacement text is never
rescanned), otherwise it emits the character and advances by one.
`cmap n = none` models a key absent from the dict (the default
`m.group(0)` keeps the matched span); `cmap n = some none` models a key
whose stored `translate_content` is `None`, in which case the replacement
callback returns `None` and `re.sub` raises `TypeError` (modelled as
`Except.error ()`).  The fuel argument of the core only bounds the
recursion depth; any `fuel ≥ length` computes the substitution
(`substF_irrel`), and `substE` passes the input length. -/
def substF (cmap : Nat → Option (Option Text)) : Nat → Text → Except Unit Text
  | _, [] => .ok []
  | 0, l => .ok l
  | fuel + 1, c :: cs =>
    match matchToken (c :: cs) with
    | some (n, m, rest) =>
      match cmap n with
      | none => (substF cmap fuel rest).map (fun s => m ++ s)
      | some none => .error ()
      | some (some t) => (substF cmap fuel rest).map (fun s => t ++ s)
    | none => (substF cmap fuel cs).map (fun s => c :: s)

def substE (cmap : Nat → Option (Option Text)) (l : Text) : Except Unit Text :=
  substF cmap l.length l

/-- Whether the reassembly pattern `\{\{\s*(\d+)\s*\}\}` matches anywhere in
the text (`True` iff `re.search` would find a token). -/
def findToken : Text → Bool
  | [] => false
  | c :: cs => (matchToken (c :: cs)).isSome || findToken cs

theorem substF_irrel (cmap : Nat → Option (Option Text)) :
    ∀ (fuel fuel2 : Nat) (l : Text), l.length ≤ fuel → l.length ≤ fuel2 →
      substF cmap fuel l = substF cmap fuel2 l := by
  intro fuel
  induction fuel with
  | zero =>
    intro fuel2 l hl _
    rw [List.length_eq_zero.mp (Nat.le_zero.mp hl)]
    cases fuel2 <;> rfl
  | succ fuel ih =>
    intro fuel2 l hl hl2
    match l, fuel2 with
    | [], f2 => cases f2 <;> rfl
    | c :: cs, 0 => simp at hl2
    | c :: cs, fuel2 + 1 =>
      simp only [substF]
      simp only [List.length_cons, Nat.add_le_add_iff_right] at hl hl2
      cases hmt : matchToken (c :: cs) with
      | some v =>
        obtain ⟨n, m, rest⟩ := v
        have hrest : rest.length ≤ cs.length := by
          have := matchToken_rest_lt hmt
          simp only [List.length_cons] at this
          omega
        dsimp only
        cases cmap n with
        | none =>
          dsimp only
          rw [ih fuel2 rest (le_trans hrest hl) (le_trans hrest hl2)]
        | some o =>
          cases o with
          | none => rfl
          | some t =>
            dsimp only
            rw [ih fuel2 rest (le_trans hrest hl) (le_trans hrest hl2)]
      | none =>
        dsimp only
        rw [ih fuel2 cs hl hl2]

theorem substE_nil (cmap : Nat → Option (Option Text)) : substE cmap [] = .ok [] := rfl

theorem substE_cons_match {c : Char} {cs : Text} {n : Nat} {m rest : Text}
    (cmap : Nat → Option (Option Text))
    (h : matchToken (c :: cs) = some (n, m, rest)) :
    substE cmap (c :: cs) =
      match cmap n with
      | none => (substE cmap rest).map (fun s => m ++ s)
      | some none => .error ()
      | some (some t) => (substE cmap rest).map (fun s => t ++ s) := by
  have hrest : rest.length ≤ cs.length := by
    have := matchToken_rest_lt h
    simp only [List.length_cons] at this
    omega
  show substF cmap (c :: cs).length (c :: cs) = _
  simp only [List.length_cons, substF, h]
  rw [substF_irrel cmap cs.length rest.length rest hrest le_rfl]
  rfl

theorem substE_cons_nomatch {c : Char} {cs : Text}
    (cmap : Nat → Option (Option Text))
    (h : matchToken (c :: cs) = none) :
    substE cmap (c :: cs) = (substE cmap cs).map (fun s => c :: s) := by
  show substF cmap (c :: cs).length (c :: cs) = _
  simp only [List.length_cons, substF, h]
  rfl

theorem matchToken_not_brace {c : Char} (cs : Text) (h : ¬ c = '{') :
    matchToken (c :: cs) = none := by
  rw [matchToken.eq_def]
  split
  next heq => injection heq with h1 h2; exact absurd h1 h
  next => rfl

theorem substE_append_pre {pre : Text} (cmap : Nat → Option (Option Text))
    (t : Text) (hpre : ∀ c ∈ pre, ¬ c = '{') :
    substE cmap (pre ++ t) = (substE cmap t).map (fun s => pre ++ s) := by
  induction pre with
  | nil =>
    cases h : substE cmap t <;> simp [Except.map, h]
  | cons c pre ih =>
    have hc : ¬ c = '{' := hpre c (by simp)
    rw [List.cons_append,
      substE_cons_nomatch cmap (matchToken_not_brace (pre ++ t) hc),
      ih (fun b hb => hpre b (by simp [hb]))]
    cases h : substE cmap t <;> simp [Except.map, h]

theorem matchToken_encodeTok (n : Nat) (rest : Text) :
    matchToken (encodeTok n ++ rest) = some (n, encodeTok n, rest) := by
  have hws : ∀ c ∈ ([' '] : Text), c.isWhitespace = true := by
    intro c hc
    simp at hc
    subst hc
    decide
  have h := matchToken_shape rest hws (natToChars_ne_nil n) (natToChars_digits n) hws
  rw [digitsToNat_natToChars] at h
  have e : encodeTok n ++ rest =
      '{' :: '{' :: ([' '] ++ (natToChars n ++ ([' '] ++ '}' :: '}' :: rest))) := by
    simp [encodeTok]
  have e2 : '{' :: '{' :: ([' '] ++ natToChars n ++ [' '] ++ ['}', '}']) = encodeTok n := by
    simp [encodeTok]
  rw [e, h, e2]

theorem substE_tok_found {cmap : Nat → Option (Option Text)} {n : Nat} {t : Text}
    (suf : Text) (h : cmap n = some (some t)) :
    substE cmap (encodeTok n ++ suf) = (substE cmap suf).map (fun s => t ++ s) := by
  have hmt := matchToken_encodeTok n suf
  cases hs : encodeTok n ++ suf with
  | nil => exact absurd hs (by simp [encodeTok])
  | cons c cs =>
    rw [hs] at hmt
    rw [substE_cons_match cmap hmt, h]

theorem substE_tok_absent {cmap : Nat → Option (Option Text)} {n : Nat}
    (suf : Text) (h : cmap n = none) :
    substE cmap (encodeTok n ++ suf) =
      (substE cmap suf).map (fun s => encodeTok n ++ s) := by
  have hmt := matchToken_encodeTok n suf
  cases hs : encodeTok n ++ suf with
  | nil => exact absurd hs (by simp [encodeTok])
  | cons c cs =>
    rw [hs] at hmt
    rw [substE_cons_match cmap hmt, h]

theorem substE_tok_noneval {cmap : Nat → Option (Option Text)} {n : Nat}
    (suf : Text) (h : cmap n = some none) :
    substE cmap (encodeTok n ++ suf) = .error () := by
  have hmt := matchToken_encodeTok n suf
  cases hs : encodeTok n ++ suf with
  | nil => exact absurd hs (by simp [encodeTok])
  | cons c cs =>
    rw [hs] at hmt
    rw [substE_cons_match cmap hmt, h]

theorem findToken_append_pre {pre : Text} (t : Text)
    (hpre : ∀ c ∈ pre, ¬ c = '{') :
    findToken (pre ++ t) = findToken t := by
  induction pre with
  | nil => rfl
  | cons c pre ih =>
    have hc : ¬ c = '{' := hpre c (by simp)
    have hmt := matchToken_not_brace (pre ++ t) hc
    rw [List.cons_append]
    show ((matchToken (c :: (pre ++ t))).isSome || findToken (pre ++ t)) = findToken t
    rw [hmt]
    simp only [Option.isSome_none, Bool.false_or]
    exact ih (fun b hb => hpre b (by simp [hb]))

theorem findToken_no_brace {l : Text} (h : ∀ c ∈ l, ¬ c = '{') :
    findToken l = false := by
  have := findToken_append_pre [] h
  simpa using this

/-- Greedy consumption of `(?:\.\d+)*`: repeatedly take a dot followed by at
least one digit, each digit run maximal.  Returns the consumed characters
and the remainder.  The fuel of the core only bounds the recursion depth;
each step consumes at least two characters, so the input length always
suffices. -/
def eatDotGroupsF : Nat → Text → Text × Text
  | _, [] => ([], [])
  | 0, l => ([], l)
  | fuel + 1, c :: r =>
    if c = '.' then
      if r.takeWhile (·.isDigit) = [] then ([], c :: r)
      else
        let rec2 := eatDotGroupsF fuel (r.dropWhile (·.isDigit))
        ('.' :: (r.takeWhile (·.isDigit) ++ rec2.1), rec2.2)
    else ([], c :: r)

def eatDotGroups (l : Text) : Text × Text := eatDotGroupsF l.length l

/-- The extraction pattern `re.compile(r"^(\d+(?:\.\d+)*\s+)(.*)$").match(text)`:
a leading run of digits, greedily extended by dot-digit groups, then at least
one whitespace character; the rest of the line is group 2.  On this pattern
the greedy match is deterministic: giving characters back from any of the
starred or plus-quantified pieces always places the next required character
class in front of a character that cannot match it, so no backtracking path
succeeds where the greedy one fails.  `(.*)` cannot cross a newline, and `$`
can only match at the end of the (already stripped, hence not
newline-terminated) text, so the match succeeds exactly when the remainder
after the whitespace run contains no newline. -/
def matchNumbering (l : Text) : Option (Text × Text) :=
  let ds := l.takeWhile (·.isDigit)
  if ds = [] then none
  else
    let gr := eatDotGroups (l.dropWhile (·.isDigit))
    let ws := gr.2.takeWhile (·.isWhitespace)
    if ws = [] then none
    else
      let r3 := gr.2.dropWhile (·.isWhitespace)
      if r3.contains '\n' then none
      else some (ds ++ gr.1 ++ ws, r3)

/-- Python `str.strip()`: remove leading and trailing whitespace. -/
def stripL (l : Text) : Text :=
  ((l.dropWhile (·.isWhitespace)).reverse.dropWhile (·.isWhitespace)).reverse

theorem stripL_eq_nil_iff (l : Text) :
    stripL l = [] ↔ ∀ c ∈ l, c.isWhitespace = true := by
  simp only [stripL, List.reverse_eq_nil_iff, List.dropWhile_eq_nil_iff,
    List.mem_reverse]
  constructor
  · intro h c hc
    have hsplit := List.takeWhile_append_dropWhile (·.isWhitespace) l
    rw [← hsplit] at hc
    rcases List.mem_append.mp hc with hmem | hmem
    · exact mem_takeWhile_pred hmem
    · exact h c hmem
  · intro h c hc
    exact h c ((List.dropWhile_sublist (·.isWhitespace)).subset hc)

theorem stripL_eq_self {l : Text}
    (h1 : ∀ c cs, l = c :: cs → c.isWhitespace = false)
    (h2 : ∀ c cs, l.reverse = c :: cs → c.isWhitespace = false) :
    stripL l = l := by
  unfold stripL
  rw [dropWhile_id h1, dropWhile_id h2, List.reverse_reverse]

theorem eatDotGroupsF_chars :
    ∀ (fuel : Nat) (l : Text), ∀ c ∈ (eatDotGroupsF fuel l).1, c = '.' ∨ c.isDigit = true := by
  intro fuel
  induction fuel with
  | zero =>
    intro l c hc
    cases l <;> simp [eatDotGroupsF] at hc
  | succ fuel ih =>
    intro l c hc
    match l with
    | [] => simp [eatDotGroupsF] at hc
    | a :: r =>
      by_cases hdot : a = '.'
      · by_cases hds : r.takeWhile (·.isDigit) = []
        · simp [eatDotGroupsF, hdot, hds] at hc
        · simp only [eatDotGroupsF, if_pos hdot, if_neg hds, List.mem_cons,
            List.mem_append] at hc
          rcases hc with rfl | hc | hc
          · exact Or.inl rfl
          · exact Or.inr (mem_takeWhile_pred hc)
          · exact ih (r.dropWhile (·.isDigit)) c hc
      · simp [eatDotGroupsF, hdot] at hc

theorem eatDotGroups_chars (l : Text) :
    ∀ c ∈ (eatDotGroups l).1, c = '.' ∨ c.isDigit = true :=
  eatDotGroupsF_chars l.length l

theorem matchNumbering_some {l pre rest : Text}
    (h : matchNumbering l = some (pre, rest)) :
    (∃ d t, pre = d :: t ∧ d.isDigit = true) ∧ (∀ c ∈ pre, ¬ c = '{') := by
  simp only [matchNumbering] at h
  split at h
  · exact absurd h (by simp)
  · split at h
    · exact absurd h (by simp)
    · split at h
      · exact absurd h (by simp)
      · next hds hws hnl =>
        simp only [Option.some.injEq, Prod.mk.injEq] at h
        obtain ⟨hpre, -⟩ := h
        subst hpre
        constructor
        · obtain ⟨d, t, hdt⟩ := List.exists_cons_of_ne_nil hds
          refine ⟨d, t ++ ((eatDotGroups (l.dropWhile (·.isDigit))).1 ++
            (eatDotGroups (l.dropWhile (·.isDigit))).2.takeWhile (·.isWhitespace)), ?_, ?_⟩
          · rw [hdt]; simp
          · exact mem_takeWhile_pred (hdt ▸ List.mem_cons_self d t)
        · intro c hc
          simp only [List.mem_append] at hc
          rcases hc with (hc | hc) | hc
          · exact digit_ne_brace (mem_takeWhile_pred hc)
          · rcases eatDotGroups_chars (l.dropWhile (·.isDigit)) c hc with
              rfl | hdig
            · decide
            · exact digit_ne_brace hdig
          · exact ws_ne_brace (mem_takeWhile_pred hc)

/-- The run-level font properties captured and re-applied by both services:
`font.name`, `font.size` (a python-docx `Length` in EMU), `font.bold`,
`font.italic`, `font.color.rgb`.  Each is `none` when unset (python `None`). -/
structure RunStyle where
  name : Option Text
  size : Option Nat
  bold : Option Bool
  italic : Option Bool
  color : Option Nat
deriving DecidableEq

/-- A text run of a paragraph. -/
structure Run where
  text : Text
  style : RunStyle
deriving DecidableEq

/-- A paragraph is its list of runs. -/
abbrev Para := List Run

/-- `paragraph.text`: concatenation of the runs' texts. -/
def paraText (p : Para) : Text := (p.map Run.text).flatten

/-- The run every `add_run` starts from: all font properties inherited. -/
def freshStyle : RunStyle :=
  { name := none, size := none, bold := none, italic := none, color := none }

/-- `DocumentItem` from both DocxService variants. -/
structure DocumentItem where
  placeholder_number : Nat
  original_content : Text
  translate_content : Option Text
deriving DecidableEq

/-- The structural part of a docx document that the traversal visits:
body paragraphs, then tables → rows → cells → cell paragraphs. -/
structure Doc where
  paragraphs : List Para
  tables : List (List (List (List Para)))
deriving DecidableEq

/-- All paragraphs in canonical traversal order. -/
def flattenDoc (d : Doc) : List Para :=
  d.paragraphs ++ d.tables.flatten.flatten.flatten

/-- Number of visited paragraphs whose stripped text is non-empty. -/
def countNE (ps : List Para) : Nat :=
  (ps.filter (fun p => !(stripL (paraText p)).isEmpty)).length

namespace DocxMain

/-- `paragraph.clear()` followed by `new_run = paragraph.add_run(new_text)`
and the style assignments of `process_paragraph` / `process_fill_paragraph`
in `src/DocxService.py`.  `font.name`, `font.bold`, `font.italic` are
assigned unconditionally from the captured dict; the size is assigned only
when truthy, as `Pt(style["size"])` — python-docx `Pt(v)` is `v * 12700`
EMU, and the captured `font.size` is already an EMU `Length`, so the stored
size gets multiplied by 12700 again; the color only when truthy
(an `RGBColor` is a tuple subclass, truthy whenever present). -/
def applyStyle (text : Text) (style : Option RunStyle) : Run :=
  match style with
  | none => { text := text, style := freshStyle }
  | some st =>
    { text := text,
      style :=
        { name := st.name,
          size := match st.size with
            | some s => if s ≠ 0 then some (s * 12700) else none
            | none => none,
          bold := st.bold,
          italic := st.italic,
          color := st.color } }

/-- `process_paragraph(paragraph, current_num, items)` from
`src/DocxService.py`: strip the text; if empty return `current_num`
unchanged; otherwise split off a numbering prefix if
`^(\d+(?:\.\d+)*\s+)(.*)$` matches, rewrite the paragraph to the prefix
(if any) followed by the placeholder, re-applying the first run's captured
style, append a `DocumentItem`, and return `current_num + 1`.  The rewritten
paragraph replaces the mutated one. -/
def process_paragraph (paragraph : Para) (current_num : Nat)
    (items : List DocumentItem) : Para × Nat × List DocumentItem :=
  let original_text := stripL (paraText paragraph)
  if original_text = [] then (paragraph, current_num, items)
  else
    let content := match matchNumbering original_text with
      | some (_, c) => c
      | none => original_text
    let new_text := match matchNumbering original_text with
      | some (number_part, _) => number_part ++ encodeTok current_num
      | none => encodeTok current_num
    let style := paragraph.head?.map Run.style
    ([applyStyle new_text style], current_num + 1,
      items ++ [⟨current_num, content, none⟩])

/-- `for paragraph in doc.paragraphs: current_num = process_paragraph(...)`. -/
def extract_paragraphs : List Para → Nat → List DocumentItem →
    List Para × Nat × List DocumentItem
  | [], n, items => ([], n, items)
  | p :: ps, n, items =>
    let r := process_paragraph p n items
    let rs := extract_paragraphs ps r.2.1 r.2.2
    (r.1 :: rs.1, rs.2)

/-- `for cell in row.cells: for paragraph in cell.paragraphs: ...`. -/
def extract_row : List (List Para) → Nat → List DocumentItem →
    List (List Para) × Nat × List DocumentItem
  | [], n, items => ([], n, items)
  | c :: cs, n, items =>
    let r := extract_paragraphs c n items
    let rs := extract_row cs r.2.1 r.2.2
    (r.1 :: rs.1, rs.2)

/-- `for row in table.rows: ...`. -/
def extract_table : List (List (List Para)) → Nat → List DocumentItem →
    List (List (List Para)) × Nat × List DocumentItem
  | [], n, items => ([], n, items)
  | r :: rs, n, items =>
    let a := extract_row r n items
    let as2 := extract_table rs a.2.1 a.2.2
    (a.1 :: as2.1, as2.2)

/-- `for table in doc.tables: ...`. -/
def extract_tables : List (List (List (List Para))) → Nat → List DocumentItem →
    List (List (List (List Para))) × Nat × List DocumentItem
  | [], n, items => ([], n, items)
  | t :: ts, n, items =>
    let a := extract_table t n items
    let as2 := extract_tables ts a.2.1 a.2.2
    (a.1 :: as2.1, as2.2)

/-- `extract_content`: the canonical traversal of `src/DocxService.py`,
starting from `current_num = 1` and an empty item list — body paragraphs
first, then every table, row, cell and cell paragraph in order.  The file
bookkeeping (uuid, filenames, saving the template) is I/O glue and not
modelled; the result is the template document and the item list. -/
def extract_content (doc : Doc) : Doc × List DocumentItem :=
  let body := extract_paragraphs doc.paragraphs 1 []
  let tbls := extract_tables doc.tables body.2.1 body.2.2
  (⟨body.1, tbls.1⟩, tbls.2.2)

/-- `translate_item` from `src/DocxService.py`: the translation callable is
a parameter `f`; an exception from it (`Except.error e`, `e` the exception
message `str(e)`) is caught and turned into the marker
`"[FAILED] " + str(e)`; otherwise the translation result is stored. -/
def translate_item (f : Text → Except Text Text) (item : DocumentItem) :
    DocumentItem :=
  { item with
    translate_content := some (match f item.original_content with
      | .ok t => t
      | .error e => strL "[FAILED] " ++ e) }

/-- `batch_translate` from `src/DocxService.py`: every item is translated by
its own task (`asyncio.gather` over `limited_translate`); the semaphore only
bounds how many run at once, each task writes exactly its own item and every
exception is caught inside `translate_item`, so the completed batch is the
item list with every item translated. -/
def batch_translate (f : Text → Except Text Text)
    (items : List DocumentItem) : List DocumentItem :=
  items.map (translate_item f)

/-- `content_map = {item.placeholder_number: item.translate_content for item
in doc_entity.items}`: a python dict comprehension; on duplicate keys the
later item wins, so lookup scans the reversed list. -/
def contentMap (items : List DocumentItem) : Nat → Option (Option Text) :=
  fun n => (items.reverse.find? (fun it => it.placeholder_number == n)).map
    (fun it => it.translate_content)

/-- `process_fill_paragraph` from `src/DocxService.py`: strip the text; if
empty, return (paragraph untouched); otherwise substitute placeholders with
`re.sub` and rewrite the paragraph to a single run carrying the first run's
captured style. -/
def process_fill_paragraph (cmap : Nat → Option (Option Text))
    (paragraph : Para) : Except Unit Para :=
  let original_text := stripL (paraText paragraph)
  if original_text = [] then .ok paragraph
  else
    (substE cmap original_text).map
      (fun new_text => [applyStyle new_text (paragraph.head?.map Run.style)])

/-- `for paragraph in doc.paragraphs: process_fill_paragraph(...)`. -/
def fill_paragraphs (cmap : Nat → Option (Option Text)) :
    List Para → Except Unit (List Para)
  | [] => .ok []
  | p :: ps => do
    let p2 ← process_fill_paragraph cmap p
    let ps2 ← fill_paragraphs cmap ps
    .ok (p2 :: ps2)

/-- Cells of one row. -/
def fill_row (cmap : Nat → Option (Option Text)) :
    List (List Para) → Except Unit (List (List Para))
  | [] => .ok []
  | c :: cs => do
    let c2 ← fill_paragraphs cmap c
    let cs2 ← fill_row cmap cs
    .ok (c2 :: cs2)

/-- Rows of one table. -/
def fill_table (cmap : Nat → Option (Option Text)) :
    List (List (List Para)) → Except Unit (List (List (List Para)))
  | [] => .ok []
  | r :: rs => do
    let r2 ← fill_row cmap r
    let rs2 ← fill_table cmap rs
    .ok (r2 :: rs2)

/-- All tables. -/
def fill_tables (cmap : Nat → Option (Option Text)) :
    List (List (List (List Para))) → Except Unit (List (List (List (List Para))))
  | [] => .ok []
  | t :: ts => do
    let t2 ← fill_table cmap t
    let ts2 ← fill_tables cmap ts
    .ok (t2 :: ts2)

/-- `fill_template` from `src/DocxService.py`: reopen the template, build the
content map, run `process_fill_paragraph` over the same traversal, and
serialize.  An exception anywhere (in particular the `TypeError` from a
`None` replacement) is caught by the blanket handler and re-raised as a 500
error, modelled by the `Except.error` outcome. -/
def fill_template (items : List DocumentItem) (template : Doc) :
    Except Unit Doc := do
  let cmap := contentMap items
  let body ← fill_paragraphs cmap template.paragraphs
  let tbls ← fill_tables cmap template.tables
  .ok ⟨body, tbls⟩

end DocxMain

namespace DocxServer

/-- `asyncio.gather` over the unguarded `_translate` closures of
`batch_translate` in `src/server/DocxService.py`: there is no per-item
handler there, so the first exception propagates out of the stage and the
batch result is lost (modelled by `Except.error` carrying the message);
only if every call succeeds does every item receive its translation. -/
def batch_translate (f : Text → Except Text Text) :
    List DocumentItem → Except Text (List DocumentItem)
  | [] => .ok []
  | item :: rest => do
    let t ← f item.original_content
    let rest2 ← batch_translate f rest
    .ok ({ item with translate_content := some t } :: rest2)

/-- Python `pat in s` for non-empty `pat`. -/
def containsSeq (pat : Text) : Text → Bool
  | [] => pat.isEmpty
  | c :: cs => pat.isPrefixOf (c :: cs) || containsSeq pat cs

/-- Python `s.replace(pat, repl)` for non-empty `pat`: a single left-to-right
pass replacing every non-overlapping occurrence; the replacement text is
never rescanned.  (`max 1` only guards the recursion; the call sites always
pass the non-empty placeholder string.) -/
def replaceAllF (pat repl : Text) : Nat → Text → Text
  | _, [] => []
  | 0, l => l
  | fuel + 1, c :: cs =>
    if pat.isPrefixOf (c :: cs) then
      repl ++ replaceAllF pat repl fuel ((c :: cs).drop (max 1 pat.length))
    else
      c :: replaceAllF pat repl fuel cs

def replaceAll (pat repl : Text) (l : Text) : Text := replaceAllF pat repl l.length l

/-- The per-paragraph (and per-cell) body of `fill_template` in
`src/server/DocxService.py`:
`for item in items: if placeholder in text: text = text.replace(placeholder,
item.translate_content or "")` — the `or ""` falls back to the empty string
when the translation is absent. -/
def fill_text (items : List DocumentItem) (t : Text) : Text :=
  items.foldl
    (fun txt item =>
      let placeholder := encodeTok item.placeholder_number
      if containsSeq placeholder txt then
        replaceAll placeholder (item.translate_content.getD []) txt
      else txt)
    t

end DocxServer

/-- Shape invariant of a template paragraph produced by extraction with
counter values in `[lo, hi)`: either it was left untouched because its text
strips to empty (all-whitespace text), or its text is an optional numbering
prefix followed by one placeholder token; the prefix starts with a digit and
contains no opening brace. -/
def goodPara (lo hi : Nat) (p : Para) : Prop :=
  (∀ c ∈ paraText p, c.isWhitespace = true) ∨
  ∃ k pre, lo ≤ k ∧ k < hi ∧
    (∀ c ∈ pre, ¬ c = '{') ∧
    (pre = [] ∨ ∃ d t, pre = d :: t ∧ d.isDigit = true) ∧
    paraText p = pre ++ encodeTok k

theorem goodPara_mono {lo hi lo2 hi2 : Nat} {p : Para}
    (hlo : lo2 ≤ lo) (hhi : hi ≤ hi2) (h : goodPara lo hi p) :
    goodPara lo2 hi2 p := by
  rcases h with h | ⟨k, pre, h1, h2, h3, h4, h5⟩
  · exact Or.inl h
  · exact Or.inr ⟨k, pre, le_trans hlo h1, lt_of_lt_of_le h2 hhi, h3, h4, h5⟩

theorem paraText_single (r : Run) : paraText [r] = r.text := by
  simp [paraText]

namespace DocxMain

theorem applyStyle_text (text : Text) (style : Option RunStyle) :
    (applyStyle text style).text = text := by
  cases style <;> rfl

/-- Behaviour of `process_paragraph` on a paragraph whose stripped text is
empty: nothing changes. -/
theorem process_paragraph_empty {p : Para} (n : Nat) (items : List DocumentItem)
    (h : stripL (paraText p) = []) :
    process_paragraph p n items = (p, n, items) := by
  simp [process_paragraph, h]

/-- Behaviour of `process_paragraph` on a paragraph with non-empty stripped
text: one single-run rewritten paragraph, the counter advances by one, and
exactly the item `current_num` is appended. -/
theorem process_paragraph_nonempty {p : Para} (n : Nat) (items : List DocumentItem)
    (h : ¬ stripL (paraText p) = []) :
    process_paragraph p n items =
      ([applyStyle
          (match matchNumbering (stripL (paraText p)) with
            | some (number_part, _) => number_part ++ encodeTok n
            | none => encodeTok n)
          (p.head?.map Run.style)], n + 1,
        items ++ [⟨n,
          match matchNumbering (stripL (paraText p)) with
            | some (_, c) => c
            | none => stripL (paraText p), none⟩]) := by
  simp [process_paragraph, h]

theorem process_paragraph_good {p : Para} {n : Nat} (items : List DocumentItem)
    (h : ¬ stripL (paraText p) = []) :
    goodPara n (n + 1) (process_paragraph p n items).1 := by
  rw [process_paragraph_nonempty n items h]
  right
  cases hmn : matchNumbering (stripL (paraText p)) with
  | none =>
    refine ⟨n, [], le_rfl, Nat.lt_succ_self n, by simp, Or.inl rfl, ?_⟩
    rw [paraText_single, applyStyle_text]
    simp
  | some v =>
    obtain ⟨pre, rest⟩ := v
    obtain ⟨⟨d, t, hdt, hdig⟩, hnb⟩ := matchNumbering_some hmn
    refine ⟨n, pre, le_rfl, Nat.lt_succ_self n, hnb, Or.inr ⟨d, t, hdt, hdig⟩, ?_⟩
    rw [paraText_single, applyStyle_text]

end DocxMain

theorem countNE_cons_empty {p : Para} (ps : List Para)
    (h : stripL (paraText p) = []) : countNE (p :: ps) = countNE ps := by
  simp [countNE, List.filter_cons, h]

theorem countNE_cons_nonempty {p : Para} (ps : List Para)
    (h : ¬ stripL (paraText p) = []) : countNE (p :: ps) = countNE ps + 1 := by
  have : (stripL (paraText p)).isEmpty = false := by
    cases hs : stripL (paraText p) with
    | nil => exact absurd hs h
    | cons a l => rfl
  simp [countNE, List.filter_cons, this]

theorem countNE_append (a b : List Para) :
    countNE (a ++ b) = countNE a + countNE b := by
  simp [countNE, List.filter_append]

namespace DocxMain

theorem extract_paragraphs_spec (ps : List Para) :
    ∀ (n : Nat) (items : List DocumentItem),
      (extract_paragraphs ps n items).2.1 = n + countNE ps ∧
      (∃ fresh : List DocumentItem,
        (extract_paragraphs ps n items).2.2 = items ++ fresh ∧
        fresh.map (fun it => it.placeholder_number) = List.range' n (countNE ps)) ∧
      (∀ q ∈ (extract_paragraphs ps n items).1, goodPara n (n + countNE ps) q) := by
  induction ps with
  | nil =>
    intro n items
    refine ⟨by simp [extract_paragraphs, countNE], ⟨[], by simp [extract_paragraphs], ?_⟩,
      by simp [extract_paragraphs]⟩
    simp [countNE]
  | cons p ps ih =>
    intro n items
    by_cases hp : stripL (paraText p) = []
    · have hstep := process_paragraph_empty n items hp
      have hcnt := countNE_cons_empty ps hp
      obtain ⟨hn, ⟨fresh, hfr, hmap⟩, hgood⟩ := ih n items
      refine ⟨?_, ⟨fresh, ?_, ?_⟩, ?_⟩
      · simp only [extract_paragraphs, hstep, hcnt]
        exact hn
      · simp only [extract_paragraphs, hstep]
        exact hfr
      · rw [hcnt]; exact hmap
      · intro q hq
        simp only [extract_paragraphs, hstep, List.mem_cons] at hq
        rcases hq with rfl | hq
        · exact Or.inl ((stripL_eq_nil_iff (paraText q)).mp hp)
        · exact goodPara_mono le_rfl (by omega) (hcnt ▸ hgood q hq)
    · have hstep := process_paragraph_nonempty n items hp
      have hcnt := countNE_cons_nonempty ps hp
      set itn : DocumentItem := ⟨n,
        match matchNumbering (stripL (paraText p)) with
          | some (_, c) => c
          | none => stripL (paraText p), none⟩ with hitn
      obtain ⟨hn, ⟨fresh, hfr, hmap⟩, hgood⟩ := ih (n + 1) (items ++ [itn])
      refine ⟨?_, ⟨itn :: fresh, ?_, ?_⟩, ?_⟩
      · simp only [extract_paragraphs, hstep, hcnt]
        rw [hn]
        omega
      · simp only [extract_paragraphs, hstep]
        rw [hfr]
        simp
      · rw [hcnt, List.map_cons, hmap]
        rfl
      · intro q hq
        simp only [extract_paragraphs, hstep, List.mem_cons] at hq
        rcases hq with rfl | hq
        · exact goodPara_mono le_rfl (by omega)
            (hstep ▸ process_paragraph_good items hp)
        · exact goodPara_mono (Nat.le_succ n) (by omega) (hn ▸ hgood q hq)

end DocxMain

namespace DocxMain

theorem extract_row_spec (row : List (List Para)) :
    ∀ (n : Nat) (items : List DocumentItem),
      (extract_row row n items).2.1 = n + countNE row.flatten ∧
      (∃ fresh : List DocumentItem,
        (extract_row row n items).2.2 = items ++ fresh ∧
        fresh.map (fun it => it.placeholder_number) =
          List.range' n (countNE row.flatten)) ∧
      (∀ cell ∈ (extract_row row n items).1, ∀ q ∈ cell,
        goodPara n (n + countNE row.flatten) q) := by
  induction row with
  | nil =>
    intro n items
    refine ⟨by simp [extract_row, countNE], ⟨[], by simp [extract_row], ?_⟩,
      by simp [extract_row]⟩
    simp [countNE]
  | cons c cs ih =>
    intro n items
    obtain ⟨hn1, ⟨fresh1, hfr1, hmap1⟩, hgood1⟩ := extract_paragraphs_spec c n items
    obtain ⟨hn2, ⟨fresh2, hfr2, hmap2⟩, hgood2⟩ :=
      ih (extract_paragraphs c n items).2.1 (extract_paragraphs c n items).2.2
    have hflat : countNE (c :: cs).flatten = countNE c + countNE cs.flatten := by
      rw [List.flatten_cons, countNE_append]
    refine ⟨?_, ⟨fresh1 ++ fresh2, ?_, ?_⟩, ?_⟩
    · simp only [extract_row]
      rw [hn2, hn1, hflat]
      omega
    · simp only [extract_row]
      rw [hfr2, hfr1]
      simp
    · rw [List.map_append, hmap1, hmap2, hn1, hflat, List.range'_append_1, Nat.add_comm]
    · intro cell hcell q hq
      simp only [extract_row, List.mem_cons] at hcell
      rcases hcell with rfl | hcell
      · exact goodPara_mono le_rfl (by omega) (hgood1 q hq)
      · exact goodPara_mono (by omega) (by rw [hn1, hflat]; omega)
          (hgood2 cell hcell q hq)

theorem extract_table_spec (tbl : List (List (List Para))) :
    ∀ (n : Nat) (items : List DocumentItem),
      (extract_table tbl n items).2.1 = n + countNE tbl.flatten.flatten ∧
      (∃ fresh : List DocumentItem,
        (extract_table tbl n items).2.2 = items ++ fresh ∧
        fresh.map (fun it => it.placeholder_number) =
          List.range' n (countNE tbl.flatten.flatten)) ∧
      (∀ row ∈ (extract_table tbl n items).1, ∀ cell ∈ row, ∀ q ∈ cell,
        goodPara n (n + countNE tbl.flatten.flatten) q) := by
  induction tbl with
  | nil =>
    intro n items
    refine ⟨by simp [extract_table, countNE], ⟨[], by simp [extract_table], ?_⟩,
      by simp [extract_table]⟩
    simp [countNE]
  | cons r rs ih =>
    intro n items
    obtain ⟨hn1, ⟨fresh1, hfr1, hmap1⟩, hgood1⟩ := extract_row_spec r n items
    obtain ⟨hn2, ⟨fresh2, hfr2, hmap2⟩, hgood2⟩ :=
      ih (extract_row r n items).2.1 (extract_row r n items).2.2
    have hflat : countNE (r :: rs).flatten.flatten =
        countNE r.flatten + countNE rs.flatten.flatten := by
      rw [List.flatten_cons, List.flatten_append, countNE_append]
    refine ⟨?_, ⟨fresh1 ++ fresh2, ?_, ?_⟩, ?_⟩
    · simp only [extract_table]
      rw [hn2, hn1, hflat]
      omega
    · simp only [extract_table]
      rw [hfr2, hfr1]
      simp
    · rw [List.map_append, hmap1, hmap2, hn1, hflat, List.range'_append_1, Nat.add_comm]
    · intro row hrow cell hcell q hq
      simp only [extract_table, List.mem_cons] at hrow
      rcases hrow with rfl | hrow
      · exact goodPara_mono le_rfl (by omega) (hgood1 cell hcell q hq)
      · exact goodPara_mono (by omega) (by rw [hn1, hflat]; omega)
          (hgood2 row hrow cell hcell q hq)

theorem extract_tables_spec (tbls : List (List (List (List Para)))) :
    ∀ (n : Nat) (items : List DocumentItem),
      (extract_tables tbls n items).2.1 = n + countNE tbls.flatten.flatten.flatten ∧
      (∃ fresh : List DocumentItem,
        (extract_tables tbls n items).2.2 = items ++ fresh ∧
        fresh.map (fun it => it.placeholder_number) =
          List.range' n (countNE tbls.flatten.flatten.flatten)) ∧
      (∀ tbl ∈ (extract_tables tbls n items).1, ∀ row ∈ tbl, ∀ cell ∈ row, ∀ q ∈ cell,
        goodPara n (n + countNE tbls.flatten.flatten.flatten) q) := by
  induction tbls with
  | nil =>
    intro n items
    refine ⟨by simp [extract_tables, countNE], ⟨[], by simp [extract_tables], ?_⟩,
      by simp [extract_tables]⟩
    simp [countNE]
  | cons t ts ih =>
    intro n items
    obtain ⟨hn1, ⟨fresh1, hfr1, hmap1⟩, hgood1⟩ := extract_table_spec t n items
    obtain ⟨hn2, ⟨fresh2, hfr2, hmap2⟩, hgood2⟩ :=
      ih (extract_table t n items).2.1 (extract_table t n items).2.2
    have hflat : countNE (t :: ts).flatten.flatten.flatten =
        countNE t.flatten.flatten + countNE ts.flatten.flatten.flatten := by
      rw [List.flatten_cons, List.flatten_append, List.flatten_append, countNE_append]
    refine ⟨?_, ⟨fresh1 ++ fresh2, ?_, ?_⟩, ?_⟩
    · simp only [extract_tables]
      rw [hn2, hn1, hflat]
      omega
    · simp only [extract_tables]
      rw [hfr2, hfr1]
      simp
    · rw [List.map_append, hmap1, hmap2, hn1, hflat, List.range'_append_1, Nat.add_comm]
    · intro tbl htbl row hrow cell hcell q hq
      simp only [extract_tables, List.mem_cons] at htbl
      rcases htbl with rfl | htbl
      · exact goodPara_mono le_rfl (by omega) (hgood1 row hrow cell hcell q hq)
      · exact goodPara_mono (by omega) (by rw [hn1, hflat]; omega)
          (hgood2 tbl htbl row hrow cell hcell q hq)

theorem extract_content_spec (d : Doc) :
    ((extract_content d).2).map (fun it => it.placeholder_number) =
      List.range' 1 (countNE (flattenDoc d)) ∧
    (∀ q ∈ flattenDoc (extract_content d).1,
      goodPara 1 (1 + countNE (flattenDoc d)) q) := by
  obtain ⟨hn1, ⟨fresh1, hfr1, hmap1⟩, hgood1⟩ :=
    extract_paragraphs_spec d.paragraphs 1 []
  obtain ⟨hn2, ⟨fresh2, hfr2, hmap2⟩, hgood2⟩ :=
    extract_tables_spec d.tables (extract_paragraphs d.paragraphs 1 []).2.1
      (extract_paragraphs d.paragraphs 1 []).2.2
  have hflat : countNE (flattenDoc d) =
      countNE d.paragraphs + countNE d.tables.flatten.flatten.flatten := by
    rw [flattenDoc, countNE_append]
  constructor
  · show (extract_tables d.tables _ _).2.2.map (fun it => it.placeholder_number) = _
    rw [hfr2, hfr1, List.nil_append, List.map_append, hmap1, hmap2, hn1, hflat,
      List.range'_append_1, Nat.add_comm]
  · intro q hq
    simp only [flattenDoc, List.mem_append] at hq
    rcases hq with hq | hq
    · exact goodPara_mono le_rfl (by omega) (hgood1 q hq)
    · simp only [List.mem_flatten] at hq
      obtain ⟨cell, ⟨row, ⟨tbl, htbl, hrowm⟩, hcellm⟩, hqm⟩ := hq
      exact goodPara_mono (by omega) (by rw [hn1, hflat]; omega)
        (hgood2 tbl htbl row hrowm cell hcellm q hqm)

end DocxMain

theorem encodeTok_ne_nil (k : Nat) : encodeTok k ≠ [] := by
  simp [encodeTok]

namespace DocxMain

theorem process_fill_paragraph_good {cmap : Nat → Option (Option Text)}
    {lo hi : Nat} {p : Para} (hp : goodPara lo hi p)
    (hc : ∀ k, lo ≤ k → k < hi → ∃ t, cmap k = some (some t) ∧ findToken t = false) :
    ∃ p2, process_fill_paragraph cmap p = .ok p2 ∧
      findToken (paraText p2) = false := by
  rcases hp with hws | ⟨k, pre, hk1, hk2, hnb, hhead, htext⟩
  · have hstrip : stripL (paraText p) = [] := (stripL_eq_nil_iff _).mpr hws
    refine ⟨p, ?_, ?_⟩
    · simp [process_fill_paragraph, hstrip]
    · exact findToken_no_brace (fun c hcm => ws_ne_brace (hws c hcm))
  · have hstrip : stripL (paraText p) = paraText p := by
      rw [htext]
      apply stripL_eq_self
      · intro c cs hcc
        rcases hhead with rfl | ⟨d, t, rfl, hdig⟩
        · rw [List.nil_append] at hcc
          simp only [encodeTok, List.cons_append] at hcc
          injection hcc with h1 h2
          rw [← h1]
          decide
        · rw [List.cons_append] at hcc
          injection hcc with h1 h2
          rw [← h1]
          exact digit_not_ws hdig
      · intro c cs hcc
        have hrev : (pre ++ encodeTok k).reverse =
            '}' :: '}' :: (' ' :: (natToChars k).reverse ++
              (' ' :: '{' :: '{' :: pre.reverse)) := by
          simp [encodeTok, List.reverse_append]
        rw [hrev] at hcc
        injection hcc with h1 h2
        rw [← h1]
        decide
    have hne : ¬ paraText p = [] := by
      rw [htext]
      intro hcon
      exact encodeTok_ne_nil k (List.append_eq_nil.mp hcon).2
    obtain ⟨t, hck, hft⟩ := hc k hk1 hk2
    have hsub : substE cmap (paraText p) = .ok (pre ++ (t ++ [])) := by
      rw [htext, substE_append_pre cmap (encodeTok k) hnb,
        ← List.append_nil (encodeTok k), substE_tok_found [] hck, substE_nil]
      rfl
    refine ⟨[applyStyle (pre ++ (t ++ [])) (p.head?.map Run.style)], ?_, ?_⟩
    · rw [process_fill_paragraph, hstrip]
      rw [if_neg hne, hsub]
      rfl
    · rw [paraText_single, applyStyle_text, findToken_append_pre _ hnb]
      simpa using hft

end DocxMain

namespace DocxMain

theorem fill_paragraphs_good {cmap : Nat → Option (Option Text)} {lo hi : Nat}
    (hc : ∀ k, lo ≤ k → k < hi → ∃ t, cmap k = some (some t) ∧ findToken t = false) :
    ∀ ps : List Para, (∀ p ∈ ps, goodPara lo hi p) →
      ∃ out, fill_paragraphs cmap ps = .ok out ∧
        ∀ q ∈ out, findToken (paraText q) = false := by
  intro ps
  induction ps with
  | nil => exact fun _ => ⟨[], rfl, by simp⟩
  | cons p ps ih =>
    intro hgood
    obtain ⟨p2, hp2, hft2⟩ :=
      process_fill_paragraph_good (hgood p (by simp)) hc
    obtain ⟨out, hout, hfout⟩ := ih (fun q hq => hgood q (by simp [hq]))
    refine ⟨p2 :: out, ?_, ?_⟩
    · simp only [fill_paragraphs, hp2, hout]
      rfl
    · intro q hq
      rcases List.mem_cons.mp hq with rfl | hq
      · exact hft2
      · exact hfout q hq

theorem fill_row_good {cmap : Nat → Option (Option Text)} {lo hi : Nat}
    (hc : ∀ k, lo ≤ k → k < hi → ∃ t, cmap k = some (some t) ∧ findToken t = false) :
    ∀ row : List (List Para), (∀ cell ∈ row, ∀ p ∈ cell, goodPara lo hi p) →
      ∃ out, fill_row cmap row = .ok out ∧
        ∀ cell ∈ out, ∀ q ∈ cell, findToken (paraText q) = false := by
  intro row
  induction row with
  | nil => exact fun _ => ⟨[], rfl, by simp⟩
  | cons c cs ih =>
    intro hgood
    obtain ⟨c2, hc2, hft2⟩ := fill_paragraphs_good hc c (hgood c (by simp))
    obtain ⟨out, hout, hfout⟩ := ih (fun cell hcell => hgood cell (by simp [hcell]))
    refine ⟨c2 :: out, ?_, ?_⟩
    · simp only [fill_row, hc2, hout]
      rfl
    · intro cell hcell q hq
      rcases List.mem_cons.mp hcell with rfl | hcell
      · exact hft2 q hq
      · exact hfout cell hcell q hq

theorem fill_table_good {cmap : Nat → Option (Option Text)} {lo hi : Nat}
    (hc : ∀ k, lo ≤ k → k < hi → ∃ t, cmap k = some (some t) ∧ findToken t = false) :
    ∀ tbl : List (List (List Para)),
      (∀ row ∈ tbl, ∀ cell ∈ row, ∀ p ∈ cell, goodPara lo hi p) →
      ∃ out, fill_table cmap tbl = .ok out ∧
        ∀ row ∈ out, ∀ cell ∈ row, ∀ q ∈ cell, findToken (paraText q) = false := by
  intro tbl
  induction tbl with
  | nil => exact fun _ => ⟨[], rfl, by simp⟩
  | cons r rs ih =>
    intro hgood
    obtain ⟨r2, hr2, hft2⟩ := fill_row_good hc r (hgood r (by simp))
    obtain ⟨out, hout, hfout⟩ := ih (fun row hrow => hgood row (by simp [hrow]))
    refine ⟨r2 :: out, ?_, ?_⟩
    · simp only [fill_table, hr2, hout]
      rfl
    · intro row hrow cell hcell q hq
      rcases List.mem_cons.mp hrow with rfl | hrow
      · exact hft2 cell hcell q hq
      · exact hfout row hrow cell hcell q hq

theorem fill_tables_good {cmap : Nat → Option (Option Text)} {lo hi : Nat}
    (hc : ∀ k, lo ≤ k → k < hi → ∃ t, cmap k = some (some t) ∧ findToken t = false) :
    ∀ tbls : List (List (List (List Para))),
      (∀ tbl ∈ tbls, ∀ row ∈ tbl, ∀ cell ∈ row, ∀ p ∈ cell, goodPara lo hi p) →
      ∃ out, fill_tables cmap tbls = .ok out ∧
        ∀ tbl ∈ out, ∀ row ∈ tbl, ∀ cell ∈ row, ∀ q ∈ cell,
          findToken (paraText q) = false := by
  intro tbls
  induction tbls with
  | nil => exact fun _ => ⟨[], rfl, by simp⟩
  | cons t ts ih =>
    intro hgood
    obtain ⟨t2, ht2, hft2⟩ := fill_table_good hc t (hgood t (by simp))
    obtain ⟨out, hout, hfout⟩ := ih (fun tbl htbl => hgood tbl (by simp [htbl]))
    refine ⟨t2 :: out, ?_, ?_⟩
    · simp only [fill_tables, ht2, hout]
      rfl
    · intro tbl htbl row hrow cell hcell q hq
      rcases List.mem_cons.mp htbl with rfl | htbl
      · exact hft2 row hrow cell hcell q hq
      · exact hfout tbl htbl row hrow cell hcell q hq

theorem fill_template_good {items : List DocumentItem} {lo hi : Nat} {tmpl : Doc}
    (hc : ∀ k, lo ≤ k → k < hi →
      ∃ t, contentMap items k = some (some t) ∧ findToken t = false)
    (hgood : ∀ p ∈ flattenDoc tmpl, goodPara lo hi p) :
    ∃ out, fill_template items tmpl = .ok out ∧
      ∀ q ∈ flattenDoc out, findToken (paraText q) = false := by
  obtain ⟨body, hbody, hftb⟩ := fill_paragraphs_good hc tmpl.paragraphs
    (fun p hp => hgood p (by simp [flattenDoc, hp]))
  obtain ⟨tbls, htbls, hftt⟩ := fill_tables_good hc tmpl.tables
    (fun tbl htbl row hrow cell hcell p hp => hgood p
      (by
        simp only [flattenDoc, List.mem_append, List.mem_flatten]
        exact Or.inr ⟨cell, ⟨row, ⟨tbl, htbl, hrow⟩, hcell⟩, hp⟩))
  refine ⟨⟨body, tbls⟩, ?_, ?_⟩
  · simp only [fill_template, hbody, htbls]
    rfl
  · intro q hq
    simp only [flattenDoc, List.mem_append, List.mem_flatten] at hq
    rcases hq with hq | hq
    · exact hftb q hq
    · obtain ⟨cell, ⟨row, ⟨tbl, htbl, hrowm⟩, hcellm⟩, hqm⟩ := hq
      exact hftt tbl htbl row hrowm cell hcellm q hqm

end DocxMain

theorem find_unique_by_num :
    ∀ (l : List DocumentItem) (it : DocumentItem) (k : Nat),
      (l.map (fun x => x.placeholder_number)).Nodup → it ∈ l →
      it.placeholder_number = k →
      l.find? (fun x => x.placeholder_number == k) = some it := by
  intro l
  induction l with
  | nil => intro it k _ hit; simp at hit
  | cons x xs ih =>
    intro it k hnd hit hk
    by_cases hx : x.placeholder_number = k
    · rw [List.find?_cons_of_pos _ (by simp [hx])]
      rcases List.mem_cons.mp hit with rfl | hmem
      · rfl
      · exfalso
        simp only [List.map_cons, List.nodup_cons] at hnd
        apply hnd.1
        rw [hx, ← hk]
        exact List.mem_map_of_mem (fun x => x.placeholder_number) hmem
    · rw [List.find?_cons_of_neg _ (by simp [hx])]
      rcases List.mem_cons.mp hit with rfl | hmem
      · exact absurd hk hx
      · refine ih it k ?_ hmem hk
        simp only [List.map_cons, List.nodup_cons] at hnd
        exact hnd.2

namespace DocxMain

theorem contentMap_eq {items : List DocumentItem} {it : DocumentItem} {k : Nat}
    (hnd : (items.map (fun x => x.placeholder_number)).Nodup)
    (hit : it ∈ items) (hk : it.placeholder_number = k) :
    contentMap items k = some it.translate_content := by
  unfold contentMap
  rw [find_unique_by_num items.reverse it k ?_ (List.mem_reverse.mpr hit) hk]
  · rfl
  · rw [List.map_reverse]
    exact (List.nodup_reverse).mpr hnd

theorem translate_item_num (f : Text → Except Text Text) (it : DocumentItem) :
    (translate_item f it).placeholder_number = it.placeholder_number := rfl

theorem translate_item_ok {f : Text → Except Text Text} {it : DocumentItem}
    {t : Text} (h : f it.original_content = .ok t) :
    (translate_item f it).translate_content = some t := by
  simp [translate_item, h]

theorem batch_translate_map_num (f : Text → Except Text Text)
    (items : List DocumentItem) :
    (batch_translate f items).map (fun it => it.placeholder_number) =
      items.map (fun it => it.placeholder_number) := by
  simp [batch_translate, List.map_map]
  intro a _
  rfl

end DocxMain

namespace DocxServer

theorem batch_translate_aborts :
    ∀ (f : Text → Except Text Text) (items : List DocumentItem),
      (∃ it ∈ items, ∃ e, f it.original_content = .error e) →
      ∃ e, batch_translate f items = .error e := by
  intro f items
  induction items with
  | nil => rintro ⟨it, hit, -⟩; simp at hit
  | cons x xs ih =>
    rintro ⟨it, hit, e, he⟩
    rcases List.mem_cons.mp hit with rfl | hmem
    · refine ⟨e, ?_⟩
      simp only [batch_translate, he]
      rfl
    · cases hx : f x.original_content with
      | error ex =>
        refine ⟨ex, ?_⟩
        simp only [batch_translate, hx]
        rfl
      | ok tx =>
        obtain ⟨e2, he2⟩ := ih ⟨it, hmem, e, he⟩
        refine ⟨e2, ?_⟩
        simp only [batch_translate, hx, he2]
        rfl

theorem isPrefixOf_self (l : Text) : l.isPrefixOf l = true := by
  induction l with
  | nil => rfl
  | cons c cs ih => simp [List.isPrefixOf, ih]

theorem replaceAllF_nil (pat repl : Text) (fuel : Nat) :
    replaceAllF pat repl fuel [] = [] := by
  cases fuel <;> rfl

theorem replaceAll_self_empty {pat : Text} (h : pat ≠ []) :
    replaceAll pat [] pat = [] := by
  obtain ⟨c, cs, rfl⟩ := List.exists_cons_of_ne_nil h
  show replaceAllF (c :: cs) [] (c :: cs).length (c :: cs) = []
  rw [List.length_cons]
  simp only [replaceAllF, isPrefixOf_self, if_pos]
  have hmax : max 1 (c :: cs).length = (c :: cs).length := by
    simp [List.length_cons]
  rw [hmax, List.drop_length, replaceAllF_nil, List.nil_append]

theorem containsSeq_self {l : Text} (h : l ≠ []) : containsSeq l l = true := by
  obtain ⟨c, cs, rfl⟩ := List.exists_cons_of_ne_nil h
  simp [containsSeq, isPrefixOf_self]

end DocxServer

/-- C1: placeholder numbers are unique, 1-based and form the contiguous
range `[1, N]` in canonical traversal order (body paragraphs, then every
table, row, cell and cell paragraph), where `N` counts the visited
paragraphs with non-empty stripped text; `process_paragraph` leaves the
counter and items unchanged on an empty paragraph and otherwise appends
exactly one item numbered `current_num` and returns `current_num + 1`. -/
theorem claim1_placeholder_numbers :
    (∀ d : Doc,
      ((DocxMain.extract_content d).2).map (fun it => it.placeholder_number) =
        List.range' 1 (countNE (flattenDoc d))) ∧
    (∀ (p : Para) (n : Nat) (items : List DocumentItem),
      stripL (paraText p) = [] →
        DocxMain.process_paragraph p n items = (p, n, items)) ∧
    (∀ (p : Para) (n : Nat) (items : List DocumentItem),
      ¬ stripL (paraText p) = [] →
        (DocxMain.process_paragraph p n items).2.1 = n + 1 ∧
        ∃ it, (DocxMain.process_paragraph p n items).2.2 = items ++ [it] ∧
          it.placeholder_number = n) := by
  refine ⟨?_, ?_, ?_⟩
  · intro d
    exact (DocxMain.extract_content_spec d).1
  · intro p n items h
    exact DocxMain.process_paragraph_empty n items h
  · intro p n items h
    rw [DocxMain.process_paragraph_nonempty n items h]
    exact ⟨rfl, _, rfl, rfl⟩

/-- Witness for C1: a document with a non-empty body paragraph, a
whitespace-only body paragraph and one table-cell paragraph numbers its
items `[1, 2]`; `process_paragraph` is inert on the whitespace paragraph
and appends item 7 at counter 7 on a non-empty one. -/
theorem claim1_witness :
    ((DocxMain.extract_content
        ⟨[[⟨strL "Hello", freshStyle⟩], [⟨strL "   ", freshStyle⟩]],
          [[[[[⟨strL "World", freshStyle⟩]]]]]⟩).2).map
        (fun it => it.placeholder_number) = [1, 2] ∧
    DocxMain.process_paragraph [⟨strL "  ", freshStyle⟩] 7 [] =
      ([⟨strL "  ", freshStyle⟩], 7, []) ∧
    ((DocxMain.process_paragraph [⟨strL "Hi", freshStyle⟩] 7 []).2.1 = 7 + 1 ∧
      ∃ it, (DocxMain.process_paragraph [⟨strL "Hi", freshStyle⟩] 7 []).2.2 =
        [] ++ [it] ∧ it.placeholder_number = 7) :=
  ⟨(claim1_placeholder_numbers.1
      ⟨[[⟨strL "Hello", freshStyle⟩], [⟨strL "   ", freshStyle⟩]],
        [[[[[⟨strL "World", freshStyle⟩]]]]]⟩).trans (by decide),
   claim1_placeholder_numbers.2.1 [⟨strL "  ", freshStyle⟩] 7 [] (by decide),
   claim1_placeholder_numbers.2.2 [⟨strL "Hi", freshStyle⟩] 7 [] (by decide)⟩

/-- C2 (counterexample): in the server variant, `batch_translate` has no
per-item exception handler, so a failing translation aborts the whole batch
instead of writing a failure marker — the stage result is the propagated
exception, and no item receives a marker. -/
theorem claim2_counterexample :
    DocxServer.batch_translate (fun _ => .error (strL "boom"))
      [⟨1, strL "hello", none⟩] = .error (strL "boom") := by decide

/-- C2 (amended): in `src/DocxService.py`, `translate_item` catches the
exception and stores the non-empty marker `"[FAILED] " + str(e)` (which can
coincide with the original content only in the corner case where the
original equals that very string), successful items keep their translations,
and the batch always completes with every item populated; in
`src/server/DocxService.py`, one failing item makes `batch_translate`
propagate the exception and abort the batch. -/
theorem claim2_amended :
    (∀ (f : Text → Except Text Text) (items : List DocumentItem),
      ∀ it ∈ DocxMain.batch_translate f items, it.translate_content ≠ none) ∧
    (∀ (f : Text → Except Text Text) (it : DocumentItem) (e : Text),
      f it.original_content = .error e →
        (DocxMain.translate_item f it).translate_content =
          some (strL "[FAILED] " ++ e) ∧ strL "[FAILED] " ++ e ≠ []) ∧
    (∀ (f : Text → Except Text Text) (it : DocumentItem) (t : Text),
      f it.original_content = .ok t →
        (DocxMain.translate_item f it).translate_content = some t) ∧
    (∀ (f : Text → Except Text Text) (items : List DocumentItem),
      (∃ it ∈ items, ∃ e, f it.original_content = .error e) →
        ∃ e, DocxServer.batch_translate f items = .error e) := by
  refine ⟨?_, ?_, ?_, ?_⟩
  · intro f items it hit
    obtain ⟨x, -, rfl⟩ := List.mem_map.mp hit
    simp [DocxMain.translate_item]
  · intro f it e he
    constructor
    · simp [DocxMain.translate_item, he]
    · intro hcon
      have h9 : (strL "[FAILED] ").length = 9 := by decide
      have hlen := congrArg List.length hcon
      rw [List.length_append, h9] at hlen
      simp at hlen
  · intro f it t h
    simp [DocxMain.translate_item, h]
  · exact DocxServer.batch_translate_aborts

/-- Witness for C2 (amended), with a translation that fails on `"x"` with
message `"boom"` and succeeds with `"T"` elsewhere. -/
theorem claim2_witness :
    ((DocxMain.translate_item
        (fun s => if s = strL "x" then .error (strL "boom") else .ok (strL "T"))
        ⟨1, strL "x", none⟩).translate_content =
      some (strL "[FAILED] " ++ strL "boom") ∧
      strL "[FAILED] " ++ strL "boom" ≠ []) ∧
    (DocxMain.translate_item
        (fun s => if s = strL "x" then .error (strL "boom") else .ok (strL "T"))
        ⟨2, strL "y", none⟩).translate_content = some (strL "T") ∧
    (∃ e, DocxServer.batch_translate
        (fun s => if s = strL "x" then .error (strL "boom") else .ok (strL "T"))
        [⟨1, strL "x", none⟩, ⟨2, strL "y", none⟩] = .error e) :=
  ⟨claim2_amended.2.1 _ ⟨1, strL "x", none⟩ (strL "boom") (by decide),
   claim2_amended.2.2.1 _ ⟨2, strL "y", none⟩ (strL "T") (by decide),
   claim2_amended.2.2.2 _ _ ⟨⟨1, strL "x", none⟩, by simp, strL "boom", by decide⟩⟩

/-- C3: round-trip — if every extracted item translates successfully and no
translated text contains a placeholder-shaped substring, then reassembling
the template with the translated items succeeds and no substring matching
the placeholder pattern remains anywhere in the output document. -/
theorem claim3_roundtrip (d : Doc) (f : Text → Except Text Text)
    (H : ∀ it ∈ (DocxMain.extract_content d).2,
      ∃ t, f it.original_content = .ok t ∧ findToken t = false) :
    ∃ out,
      DocxMain.fill_template
        (DocxMain.batch_translate f (DocxMain.extract_content d).2)
        (DocxMain.extract_content d).1 = .ok out ∧
      ∀ q ∈ flattenDoc out, findToken (paraText q) = false := by
  obtain ⟨hmap, hgood⟩ := DocxMain.extract_content_spec d
  apply DocxMain.fill_template_good ?_ hgood
  intro k hk1 hk2
  have hkmem : k ∈ ((DocxMain.extract_content d).2).map
      (fun it => it.placeholder_number) := by
    rw [hmap]
    exact List.mem_range'_1.mpr ⟨hk1, hk2⟩
  obtain ⟨it, hit, hnum⟩ := List.mem_map.mp hkmem
  obtain ⟨t, hok, hft⟩ := H it hit
  have hnd : ((DocxMain.batch_translate f (DocxMain.extract_content d).2).map
      (fun x => x.placeholder_number)).Nodup := by
    rw [DocxMain.batch_translate_map_num, hmap]
    exact List.nodup_range' 1 (countNE (flattenDoc d))
  have hmem2 : DocxMain.translate_item f it ∈
      DocxMain.batch_translate f (DocxMain.extract_content d).2 :=
    List.mem_map_of_mem _ hit
  have hcm : DocxMain.contentMap
      (DocxMain.batch_translate f (DocxMain.extract_content d).2) k =
      some (DocxMain.translate_item f it).translate_content :=
    DocxMain.contentMap_eq hnd hmem2
      (by rw [DocxMain.translate_item_num]; exact hnum)
  refine ⟨t, ?_, hft⟩
  rw [hcm, DocxMain.translate_item_ok hok]

/-- Witness for C3: a three-paragraph document (body text, whitespace-only
body paragraph, one table cell) with the constant translation `"T"`. -/
theorem claim3_witness :
    ∃ out,
      DocxMain.fill_template
        (DocxMain.batch_translate (fun _ => .ok (strL "T"))
          (DocxMain.extract_content
            ⟨[[⟨strL "Hello", freshStyle⟩], [⟨strL "   ", freshStyle⟩]],
              [[[[[⟨strL "2.1 Intro", freshStyle⟩]]]]]⟩).2)
        (DocxMain.extract_content
          ⟨[[⟨strL "Hello", freshStyle⟩], [⟨strL "   ", freshStyle⟩]],
            [[[[[⟨strL "2.1 Intro", freshStyle⟩]]]]]⟩).1 = .ok out ∧
      ∀ q ∈ flattenDoc out, findToken (paraText q) = false :=
  claim3_roundtrip
    ⟨[[⟨strL "Hello", freshStyle⟩], [⟨strL "   ", freshStyle⟩]],
      [[[[[⟨strL "2.1 Intro", freshStyle⟩]]]]]⟩
    (fun _ => .ok (strL "T"))
    (fun it _ => ⟨strL "T", rfl, by decide⟩)

/-- C4 (counterexample): in `src/DocxService.py`, an item whose
`translate_content` is absent makes reassembly fail rather than substitute
the empty string — `content_map.get` returns the stored `None`, the `re.sub`
callback returns it, and the resulting `TypeError` surfaces as the 500
error, modelled by `Except.error`. -/
theorem claim4_counterexample :
    DocxMain.fill_template [⟨1, strL "x", none⟩]
      ⟨[[⟨strL "\x7b\x7b 1 \x7d\x7d", freshStyle⟩]], []⟩ = .error () := by decide

/-- C4 (amended): the empty-string fallback for an absent translation is the
server variant's behaviour — `fill_template` in `src/server/DocxService.py`
replaces the item's placeholder with `translate_content or ""`, i.e. the
empty string, and completes (it is a total function); the main variant's
`process_fill_paragraph` instead raises on such a placeholder (`re.sub`
callback returning `None`), so its reassembly fails rather than substituting
the empty string. -/
theorem claim4_amended :
    (∀ it : DocumentItem, it.translate_content = none →
      DocxServer.fill_text [it] (encodeTok it.placeholder_number) = []) ∧
    (∀ (k : Nat) (cmap : Nat → Option (Option Text)) (pre suf : Text),
      (∀ c ∈ pre, ¬ c = '{') → cmap k = some none →
      substE cmap (pre ++ (encodeTok k ++ suf)) = .error ()) := by
  constructor
  · intro it hnone
    simp only [DocxServer.fill_text, List.foldl_cons, List.foldl_nil,
      DocxServer.containsSeq_self (encodeTok_ne_nil it.placeholder_number),
      if_true, hnone, Option.getD]
    exact DocxServer.replaceAll_self_empty (encodeTok_ne_nil _)
  · intro k cmap pre suf hpre hk
    rw [substE_append_pre cmap _ hpre, substE_tok_noneval suf hk]
    rfl

/-- Witness for C4 (amended): item 3 with an absent translation. -/
theorem claim4_witness :
    DocxServer.fill_text [⟨3, strL "orig", none⟩] (encodeTok 3) = [] ∧
    substE (fun n => if n = 3 then some none else none)
      ([] ++ (encodeTok 3 ++ [])) = .error () :=
  ⟨claim4_amended.1 ⟨3, strL "orig", none⟩ (by decide),
   claim4_amended.2 3 (fun n => if n = 3 then some none else none) [] []
     (by simp) (by decide)⟩

/-- C5 (counterexample): decoding is not strict — the reassembly pattern
`\{\{\s*(\d+)\s*\}\}` accepts zero whitespace and leading zeros, so
`"\x7b\x7b5\x7d\x7d"` is decoded as token 5 and substituted, and
`"\x7b\x7b 007 \x7d\x7d"` is decoded as token 7. -/
theorem claim5_counterexample :
    substE (fun n => if n = 5 then some (some (strL "X")) else none)
      (strL "\x7b\x7b5\x7d\x7d") = .ok (strL "X") ∧
    substE (fun n => if n = 7 then some (some (strL "Y")) else none)
      (strL "\x7b\x7b 007 \x7d\x7d") = .ok (strL "Y") := by decide

/-- C5 (amended): decoding accepts exactly the shape `"\x7b\x7b"`, any
amount of whitespace, one or more decimal digits (leading zeros allowed,
read as a decimal number), any amount of whitespace, `"\x7d\x7d"`; and
every decoded token has that shape, so delimiter-like substrings whose
interior is not whitespace-wrapped digits (such as `"\x7b\x7b x \x7d\x7d"`)
are never decoded. -/
theorem claim5_amended :
    (∀ (ws1 ds ws2 rest : Text),
      (∀ c ∈ ws1, c.isWhitespace = true) → ds ≠ [] →
      (∀ c ∈ ds, c.isDigit = true) → (∀ c ∈ ws2, c.isWhitespace = true) →
      matchToken ('{' :: '{' :: (ws1 ++ (ds ++ (ws2 ++ '}' :: '}' :: rest)))) =
        some (digitsToNat ds,
          '{' :: '{' :: (ws1 ++ ds ++ ws2 ++ ['}', '}']), rest)) ∧
    (∀ (l m rest : Text) (n : Nat), matchToken l = some (n, m, rest) →
      ∃ ws1 ds ws2,
        (∀ c ∈ ws1, c.isWhitespace = true) ∧ ds ≠ [] ∧
        (∀ c ∈ ds, c.isDigit = true) ∧ (∀ c ∈ ws2, c.isWhitespace = true) ∧
        n = digitsToNat ds ∧
        m = '{' :: '{' :: (ws1 ++ ds ++ ws2 ++ ['}', '}']) ∧
        l = m ++ rest) ∧
    matchToken (strL "\x7b\x7b x \x7d\x7d") = none :=
  ⟨fun ws1 ds ws2 rest h1 h2 h3 h4 => matchToken_shape rest h1 h2 h3 h4,
   fun l m rest n h => matchToken_some h,
   by decide⟩

/-- Witness for C5 (amended): `"\x7b\x7b  5 \x7d\x7d"` (two leading spaces)
decodes to 5 with the whole span matched. -/
theorem claim5_witness :
    matchToken ('{' :: '{' :: ([' ', ' '] ++ (['5'] ++ ([' '] ++ '}' :: '}' :: [])))) =
      some (digitsToNat ['5'],
        '{' :: '{' :: ([' ', ' '] ++ ['5'] ++ [' '] ++ ['}', '}']), []) :=
  claim5_amended.1 [' ', ' '] ['5'] [' '] [] (by decide) (by decide)
    (by decide) (by decide)

/-- C6: a placeholder token whose number matches no item's
`placeholder_number` is left unchanged in place by the `re.sub`
substitution (`content_map.get` falls back to the matched span
`m.group(0)`), the rest of the text is still processed, and nothing is
raised. -/
theorem claim6_unknown_token (items : List DocumentItem) (k : Nat)
    (pre suf s2 : Text)
    (hno : ∀ it ∈ items, ¬ it.placeholder_number = k)
    (hpre : ∀ c ∈ pre, ¬ c = '{')
    (hsuf : substE (DocxMain.contentMap items) suf = .ok s2) :
    substE (DocxMain.contentMap items) (pre ++ (encodeTok k ++ suf)) =
      .ok (pre ++ (encodeTok k ++ s2)) := by
  have hnone : DocxMain.contentMap items k = none := by
    unfold DocxMain.contentMap
    rw [List.find?_eq_none.mpr ?_]
    · rfl
    · intro x hx
      simp only [beq_iff_eq]
      exact hno x (List.mem_reverse.mp hx)
  rw [substE_append_pre _ _ hpre, substE_tok_absent suf hnone, hsuf]
  rfl

/-- Witness for C6: `"\x7b\x7b 999 \x7d\x7d"` with only item 1 present stays
literally in the output. -/
theorem claim6_witness :
    substE (DocxMain.contentMap [⟨1, strL "a", some (strL "b")⟩])
      ([] ++ (encodeTok 999 ++ [])) =
      .ok ([] ++ (encodeTok 999 ++ [])) :=
  claim6_unknown_token [⟨1, strL "a", some (strL "b")⟩] 999 [] [] []
    (by decide) (by simp) (substE_nil _)

/-- C7 (code bug): the main variant's rewrite does preserve the captured
font name, bold, italic and color and collapses the paragraph to exactly
one run, but the size is assigned as `Pt(style["size"])` although
`font.size` is already a `Length` in EMU, so a captured 12 pt size
(152400 EMU) comes back as 152400 · 12700 EMU (i.e. 152400 pt), not 12 pt;
the server variant assigns the captured size unchanged. -/
theorem claim7_size_double_scaled :
    (DocxMain.process_paragraph
        [⟨strL "Hello", ⟨none, some 152400, some true, none, some 255⟩⟩] 1 []).1 =
      [⟨encodeTok 1, ⟨none, some 1935480000, some true, none, some 255⟩⟩] ∧
    ¬ (1935480000 = 152400) := ⟨by decide, by decide⟩

/-- C8: extraction keeps a matched numbering prefix verbatim ahead of the
placeholder and records only the remainder as `original_content`; with no
prefix the whole stripped text becomes `original_content` and the paragraph
text becomes just the placeholder. -/
theorem claim8_numbering_prefix_kept (p : Para) (n : Nat)
    (items : List DocumentItem) :
    (∀ pre rest, matchNumbering (stripL (paraText p)) = some (pre, rest) →
      (DocxMain.process_paragraph p n items).2.2 = items ++ [⟨n, rest, none⟩] ∧
      paraText (DocxMain.process_paragraph p n items).1 = pre ++ encodeTok n) ∧
    (matchNumbering (stripL (paraText p)) = none → ¬ stripL (paraText p) = [] →
      (DocxMain.process_paragraph p n items).2.2 =
        items ++ [⟨n, stripL (paraText p), none⟩] ∧
      paraText (DocxMain.process_paragraph p n items).1 = encodeTok n) := by
  constructor
  · intro pre rest hmn
    have hne : ¬ stripL (paraText p) = [] := by
      intro hnil
      rw [hnil] at hmn
      have hmnnil : matchNumbering [] = none := by decide
      rw [hmnnil] at hmn
      cases hmn
    rw [DocxMain.process_paragraph_nonempty n items hne]
    refine ⟨by simp [hmn], ?_⟩
    rw [paraText_single, DocxMain.applyStyle_text, hmn]
  · intro hmn hne
    rw [DocxMain.process_paragraph_nonempty n items hne]
    refine ⟨by simp [hmn], ?_⟩
    rw [paraText_single, DocxMain.applyStyle_text, hmn]

/-- Witness for C8: `"2.1 Introduction"` at counter 1 gives the item content
`"Introduction"` and the template text `"2.1 \x7b\x7b 1 \x7d\x7d"`. -/
theorem claim8_witness :
    ((DocxMain.process_paragraph [⟨strL "2.1 Introduction", freshStyle⟩] 1 []).2.2 =
      [] ++ [⟨1, strL "Introduction", none⟩] ∧
      paraText (DocxMain.process_paragraph
        [⟨strL "2.1 Introduction", freshStyle⟩] 1 []).1 =
        strL "2.1 " ++ encodeTok 1) ∧
    ((DocxMain.process_paragraph [⟨strL "Hello", freshStyle⟩] 2 []).2.2 =
      [] ++ [⟨2, strL "Hello", none⟩] ∧
      paraText (DocxMain.process_paragraph [⟨strL "Hello", freshStyle⟩] 2 []).1 =
        encodeTok 2) :=
  ⟨(claim8_numbering_prefix_kept [⟨strL "2.1 Introduction", freshStyle⟩] 1 []).1
      (strL "2.1 ") (strL "Introduction") (by decide),
   (claim8_numbering_prefix_kept [⟨strL "Hello", freshStyle⟩] 2 []).2
      (by decide) (by decide)⟩

/-- C10: substitution is single-pass — a found token is replaced by the
stored translation verbatim and scanning resumes strictly after the token,
so replacement text is never rescanned, even when it contains a
placeholder-shaped substring. -/
theorem claim10_single_pass (cmap : Nat → Option (Option Text)) (k : Nat)
    (t pre suf : Text)
    (hpre : ∀ c ∈ pre, ¬ c = '{') (hk : cmap k = some (some t)) :
    substE cmap (pre ++ (encodeTok k ++ suf)) =
      (substE cmap suf).map (fun s => pre ++ (t ++ s)) := by
  rw [substE_append_pre _ _ hpre, substE_tok_found suf hk]
  cases substE cmap suf <;> rfl

/-- Witness for C10: item 1's translation is the literal text
`"\x7b\x7b 3 \x7d\x7d"`; filling `"\x7b\x7b 1 \x7d\x7d"` leaves that text
verbatim in the output even though item 3 maps to `"X"`. -/
theorem claim10_witness :
    substE (fun n => if n = 1 then some (some (strL "\x7b\x7b 3 \x7d\x7d"))
        else if n = 3 then some (some (strL "X")) else none)
      ([] ++ (encodeTok 1 ++ [])) =
      (substE (fun n => if n = 1 then some (some (strL "\x7b\x7b 3 \x7d\x7d"))
          else if n = 3 then some (some (strL "X")) else none) []).map
        (fun s => [] ++ (strL "\x7b\x7b 3 \x7d\x7d" ++ s)) :=
  claim10_single_pass
    (fun n => if n = 1 then some (some (strL "\x7b\x7b 3 \x7d\x7d"))
      else if n = 3 then some (some (strL "X")) else none)
    1 (strL "\x7b\x7b 3 \x7d\x7d") [] [] (by simp) (by decide)
